import Mathlib

/-!
Verification development for the EmojiDB storage engine.

The definitions below are a shallow embedding of the Go sources:
src/core/db.go (database, tables, insert, bulk insert, schema diff and
sync, flush) and src/safety/safety_api.go (update, delete, restore).
Go machine details are modelled as follows: a Go map from string to a
dynamic value becomes an association list with first-match lookup; Go
time.Time becomes a natural number of nanoseconds; the encrypted framed
files become lists of already decoded records, with a separate
constructor for records that fail to decrypt or deserialize.
-/

namespace EmojiDB

/-- Dynamic scalar values stored in rows. The Go code stores them as
untyped interface values compared with builtin equality; the spec
recommends a closed tagged variant. Claims in this development only
involve integers, strings and booleans, so the float and nested map
cases are omitted. -/
inductive Value where
  | vInt (n : Int)
  | vStr (s : String)
  | vBool (b : Bool)
  deriving DecidableEq, Repr

/-- A Row is a Go map from field name to value; modelled as an
association list with first-match lookup. -/
abbrev Row := List (String × Value)

/-- Reading record[name] in Go: none models a missing key. -/
def rowGet : Row → String → Option Value
  | [], _ => none
  | (k, v) :: rest, key => if k == key then some v else rowGet rest key

/-- Writing row[name] = v in Go: replace the existing key or add it. -/
def rowSet : Row → String → Value → Row
  | [], k, v => [(k, v)]
  | (k0, v0) :: rest, k, v =>
      if k0 == k then (k, v) :: rest else (k0, v0) :: rowSet rest k v

/-- Field types from core (FieldTypeInt, FieldTypeString, ...). -/
inductive FieldType where
  | int
  | string
  | bool
  | float
  | map
  deriving DecidableEq, Repr

/-- A schema field. The Go field named Type is called typ here because
Type is a Lean keyword. -/
structure Field where
  Name : String
  typ : FieldType
  Unique : Bool
  deriving DecidableEq, Repr

structure Schema where
  Version : Nat
  Fields : List Field
  deriving DecidableEq, Repr

/-- The live in-memory buffer of a table. -/
structure HotHeap where
  Rows : List Row
  CreatedAt : Nat
  MaxRows : Nat
  deriving DecidableEq, Repr

/-- NewHotHeap(maxRows) with the current time supplied explicitly. -/
def NewHotHeap (now maxRows : Nat) : HotHeap :=
  { Rows := [], CreatedAt := now, MaxRows := maxRows }

structure ClumpMetadata where
  RowCount : Nat
  CreatedAt : Nat
  SchemaVersion : Nat
  deriving DecidableEq, Repr

structure SealedClump where
  Rows : List Row
  SealedAt : Nat
  Metadata : ClumpMetadata
  deriving DecidableEq, Repr

/-- The per-table unique indices: Go map from field name to a set of
already used values, modelled as an association list of value lists
with first-match lookup. -/
abbrev UniqueIndices := List (String × List Value)

def idxLookup : UniqueIndices → String → Option (List Value)
  | [], _ => none
  | (f, vs) :: rest, key => if f == key then some vs else idxLookup rest key

/-- Membership test on a unique index; a missing inner map reads as
empty in Go, hence false. -/
def idxHas (idx : UniqueIndices) (f : String) (v : Value) : Bool :=
  match idxLookup idx f with
  | some vs => vs.contains v
  | none => false

/-- Adding a value to the inner set of index f. Go set insertion is
idempotent. When the key is absent nothing is added; Go would fault on
a nil inner map there, and the path is unreachable because DefineSchema
creates an entry for every unique field. -/
def idxAdd : UniqueIndices → String → Value → UniqueIndices
  | [], _, _ => []
  | (f, vs) :: rest, key, v =>
      if f == key then (f, if vs.contains v then vs else vs ++ [v]) :: rest
      else (f, vs) :: idxAdd rest key v

structure Table where
  Name : String
  schema : Schema
  hotHeap : HotHeap
  SealedClumps : List SealedClump
  UniqueIndices : UniqueIndices
  deriving DecidableEq, Repr

/-- The full logical row sequence of a table: sealed clumps in order,
then the live hot heap. -/
def Table.allRows (t : Table) : List Row :=
  (t.SealedClumps.map SealedClump.Rows).flatten ++ t.hotHeap.Rows

/-- The constraint loop of core Insert: every schema field must be
present, and unique field values must be absent from the index. -/
def checkRecord (fields : List Field) (idx : UniqueIndices) (record : Row) :
    Option String :=
  match fields with
  | [] => none
  | f :: rest =>
    match rowGet record f.Name with
    | none => some ("missing field: " ++ f.Name)
    | some v =>
      if f.Unique && idxHas idx f.Name v then
        some ("unique constraint violation: " ++ f.Name)
      else checkRecord rest idx record

/-- The index application loop of Insert and BulkInsert: record the
value of every unique field. Presence was validated beforehand, so the
none case never fires on the paths the code reaches. -/
def applyIndices (fields : List Field) (idx : UniqueIndices) (record : Row) :
    UniqueIndices :=
  match fields with
  | [] => idx
  | f :: rest =>
    let idx1 :=
      if f.Unique then
        match rowGet record f.Name with
        | some v => idxAdd idx f.Name v
        | none => idx
      else idx
    applyIndices rest idx1 record

/-- Building a SealedClump from the current hot heap, as done by the
auto-flush branch of Insert and BulkInsert and by Flush. -/
def mkClump (t : Table) (now : Nat) : SealedClump :=
  { Rows := t.hotHeap.Rows
    SealedAt := now
    Metadata :=
      { RowCount := t.hotHeap.Rows.length
        CreatedAt := t.hotHeap.CreatedAt
        SchemaVersion := t.schema.Version } }

/-- The post-insert capacity check: when the hot heap row count has
reached MaxRows the heap is detached into a new SealedClump and
replaced by a fresh heap of the hardcoded capacity 1000. The detached
clump is returned for asynchronous persistence. -/
def sealCheck (t : Table) (now : Nat) : Table × Option SealedClump :=
  if t.hotHeap.Rows.length ≥ t.hotHeap.MaxRows then
    let clump := mkClump t now
    ({ t with
        SealedClumps := t.SealedClumps ++ [clump]
        hotHeap := NewHotHeap now 1000 }, some clump)
  else (t, none)

/-- Table level core of Database.Insert: constraint check, index
update, append, capacity check. Returns the new table, the clump
handed to the persistence path if a seal happened, and the error. -/
def insertT (t : Table) (record : Row) (now : Nat) :
    Table × Option SealedClump × Option String :=
  match checkRecord t.schema.Fields t.UniqueIndices record with
  | some e => (t, none, some e)
  | none =>
    let t1 := { t with
      UniqueIndices := applyIndices t.schema.Fields t.UniqueIndices record
      hotHeap := { t.hotHeap with Rows := t.hotHeap.Rows ++ [record] } }
    let (t2, c) := sealCheck t1 now
    (t2, c, none)

/-- Validation of one batch row in BulkInsert phase 1: schema presence,
uniqueness against the index, then uniqueness against the earlier rows
of the same batch. -/
def checkRecordBatch (fields : List Field) (idx : UniqueIndices)
    (earlier : List Row) (record : Row) (i : Nat) : Option String :=
  match fields with
  | [] => none
  | f :: rest =>
    match rowGet record f.Name with
    | none => some ("row " ++ toString i ++ ": missing field: " ++ f.Name)
    | some v =>
      if f.Unique then
        if idxHas idx f.Name v then
          some ("row " ++ toString i ++ ": unique constraint violation: " ++ f.Name)
        else if earlier.any (fun rj => rowGet rj f.Name == some v) then
          some ("row " ++ toString i ++ ": duplicate value in batch for field: " ++ f.Name)
        else checkRecordBatch rest idx earlier record i
      else checkRecordBatch rest idx earlier record i

/-- BulkInsert phase 1 over the whole batch, accumulating the earlier
rows for the in-batch duplicate check. -/
def validateBatch (fields : List Field) (idx : UniqueIndices) :
    List Row → List Row → Nat → Option String
  | [], _, _ => none
  | r :: rest, earlier, i =>
    match checkRecordBatch fields idx earlier r i with
    | some e => some e
    | none => validateBatch fields idx rest (earlier ++ [r]) (i + 1)

/-- BulkInsert phase 2: apply index updates and hot heap appends for
every row. -/
def applyBatch : Table → List Row → Table
  | t, [] => t
  | t, r :: rest =>
      applyBatch
        { t with
          UniqueIndices := applyIndices t.schema.Fields t.UniqueIndices r
          hotHeap := { t.hotHeap with Rows := t.hotHeap.Rows ++ [r] } }
        rest

/-- Table level core of Database.BulkInsert: all-or-nothing validation,
then application, then a single capacity check. -/
def bulkInsertT (t : Table) (records : List Row) (now : Nat) :
    Table × Option SealedClump × Option String :=
  match validateBatch t.schema.Fields t.UniqueIndices records [] 0 with
  | some e => (t, none, some e)
  | none =>
    let t1 := applyBatch t records
    let (t2, c) := sealCheck t1 now
    (t2, c, none)

/-- Index skeleton built by DefineSchema: one empty entry per unique
field. A duplicated unique field name yields a shadowed later entry,
matching the single Go map slot. -/
def buildIndices (fields : List Field) : UniqueIndices :=
  fields.filterMap (fun f => if f.Unique then some (f.Name, []) else none)

/-- The new-table branch of DefineSchema when no orphaned clumps are
pending: a fresh table with empty hot heap (hardcoded capacity 1000 in
the source; kept as a parameter so the seal threshold can be stated for
any capacity) and empty unique indices. -/
def freshTable (name : String) (s : Schema) (now cap : Nat) : Table :=
  { Name := name
    schema := s
    hotHeap := NewHotHeap now cap
    SealedClumps := []
    UniqueIndices := buildIndices s.Fields }

/-- A safety log record as deserialized from the safety file: table
name, backup time in nanoseconds, and the saved row. -/
structure SafetyBackup where
  TableName : String
  Timestamp : Nat
  Data : Row
  deriving DecidableEq, Repr

/-- One framed record of the safety file after framing has been read.
corrupt stands for a record whose decryption or deserialization fails;
the Restore loop skips such records and continues. -/
inductive LogRecord where
  | good (b : SafetyBackup)
  | corrupt
  deriving DecidableEq, Repr

/-- Schema diff findings. The Go code renders these as strings
(TABLE_NEW, TYPE_MISMATCH, FIELD_ADD, FIELD_REMOVE with the field
name interpolated); the constructors keep the same information. -/
inductive Conflict where
  | tableNew
  | typeMismatch (name : String) (oldType newType : FieldType)
  | fieldAdd (name : String)
  | fieldRemove (name : String)
  deriving DecidableEq, Repr

/-- ConflictReport with the Compatiable spelling of the source. -/
structure ConflictReport where
  Compatiable : Bool
  Destructive : Bool
  Conflicts : List Conflict
  deriving DecidableEq, Repr

/-- The database: table and schema maps, plus the decoded contents of
the two data files. DataLog is the sequence of clump records appended
to the primary data file, SafetyLog the sequence of records appended
to the safety file. Encryption keys and file handles are abstracted
away; a failed decryption surfaces as a corrupt log record. -/
structure Database where
  Schemas : List (String × Schema)
  Tables : List (String × Table)
  SafetyLog : List LogRecord
  DataLog : List (String × SealedClump)
  deriving DecidableEq, Repr

def lookupAssoc {α : Type} : List (String × α) → String → Option α
  | [], _ => none
  | (k, v) :: rest, key => if k == key then some v else lookupAssoc rest key

def setAssoc {α : Type} (m : List (String × α)) (k : String) (v : α) :
    List (String × α) :=
  if m.any (fun p => p.1 == k) then
    m.map (fun p => if p.1 == k then (k, v) else p)
  else m ++ [(k, v)]

def lookupTable (db : Database) (name : String) : Option Table :=
  lookupAssoc db.Tables name

def setTable (db : Database) (name : String) (t : Table) : Database :=
  { db with Tables := setAssoc db.Tables name t }

/-- Appending one persisted clump record to the primary data file. -/
def appendData (db : Database) (name : String) (c : SealedClump) : Database :=
  { db with DataLog := db.DataLog ++ [(name, c)] }

/-- Commit a table update plus the optional clump handed to the
persistence path. -/
def commitTable (db : Database) (name : String) (t : Table)
    (c : Option SealedClump) : Database :=
  match c with
  | some cl => appendData (setTable db name t) name cl
  | none => setTable db name t

/-- Database.Insert: table lookup (failing with the named table not
found error), then the table level insert. -/
def DBInsert (db : Database) (tableName : String) (record : Row) (now : Nat) :
    Database × Option String :=
  match lookupTable db tableName with
  | none => (db, some ("table not found: " ++ tableName))
  | some t =>
    let r := insertT t record now
    match r.2.2 with
    | some e => (db, some e)
    | none => (commitTable db tableName r.1 r.2.1, none)

/-- Database.BulkInsert. -/
def DBBulkInsert (db : Database) (tableName : String) (records : List Row)
    (now : Nat) : Database × Option String :=
  match lookupTable db tableName with
  | none => (db, some ("table not found: " ++ tableName))
  | some t =>
    let r := bulkInsertT t records now
    match r.2.2 with
    | some e => (db, some e)
    | none => (commitTable db tableName r.1 r.2.1, none)

/-- Database.Flush: missing tables fail with the bare table not found
string of the source; an empty hot heap returns success immediately
without sealing; otherwise the heap is sealed and the clump is
persisted synchronously. -/
def DBFlush (db : Database) (tableName : String) (now : Nat) :
    Database × Option String :=
  match lookupTable db tableName with
  | none => (db, some ("table not found"))
  | some t =>
    if t.hotHeap.Rows.length == 0 then (db, none)
    else
      let clump := mkClump t now
      let t1 := { t with
        SealedClumps := t.SealedClumps ++ [clump]
        hotHeap := NewHotHeap now 1000 }
      (appendData (setTable db tableName t1) tableName clump, none)

/-- Go rows are maps, hence reference values: the safety Update loop
stores into toBackup the same map that it then patches in place. The
hot heap is therefore modelled, inside that operation, as a list of
addresses (positions) into a store of row values. -/
structure RowStore where
  cells : List Row
  deriving DecidableEq, Repr

def RowStore.read (s : RowStore) (a : Nat) : Row := s.cells.getD a []

def RowStore.write (s : RowStore) (a : Nat) (r : Row) : RowStore :=
  ⟨s.cells.set a r⟩

/-- Applying the patch map field by field, as the inner loop of safety
Update does. -/
def applyPatch (r patch : Row) : Row :=
  patch.foldl (fun acc p => rowSet acc p.1 p.2) r

/-- The scan loop of safety Update: for each row address, if the
dereferenced row matches the filter, its address is appended to
toBackup and the same cell is patched in place. -/
def updateLoop (filter : Row → Bool) (patch : Row) :
    RowStore → List Nat → RowStore × List Nat
  | st, [] => (st, [])
  | st, a :: rest =>
    let row := st.read a
    if filter row then
      let st1 := st.write a (applyPatch row patch)
      let res := updateLoop filter patch st1 rest
      (res.1, a :: res.2)
    else updateLoop filter patch st rest

/-- Safety Update on a hot heap: runs the scan loop, then serializes
the backups. Serialization happens only after the loop (the call to
BatchBackupForSafety follows it), so it dereferences the already
patched cells. Returns the new heap rows and the serialized backups. -/
def safetyUpdateHeap (rows : List Row) (filter : Row → Bool) (patch : Row) :
    List Row × List Row :=
  let res := updateLoop filter patch ⟨rows⟩ (List.range rows.length)
  (res.1.cells, res.2.map res.1.read)

/-- Safety Delete on a hot heap: matching rows are captured for backup
and removed, the others are kept in order. Deletion does not mutate
the row maps, so the backups hold the original values here. -/
def safetyDeleteHeap (rows : List Row) (filter : Row → Bool) :
    List Row × List Row :=
  (rows.filter (fun r => !(filter r)), rows.filter filter)

/-- BatchBackupForSafety, modelled from the spec: each captured row is
wrapped in a SafetyBackup with the current time and appended to the
safety log, one record per row (the function body is not under src,
only its call sites are). -/
def appendSafety (db : Database) (tableName : String) (backups : List Row)
    (now : Nat) : Database :=
  { db with SafetyLog :=
      db.SafetyLog ++ backups.map (fun r => LogRecord.good ⟨tableName, now, r⟩) }

/-- safety.Update at database level. -/
def SafetyUpdate (db : Database) (tableName : String) (filter : Row → Bool)
    (patch : Row) (now : Nat) : Database × Option String :=
  match lookupTable db tableName with
  | none => (db, some ("table not found"))
  | some t =>
    let res := safetyUpdateHeap t.hotHeap.Rows filter patch
    let t1 := { t with hotHeap := { t.hotHeap with Rows := res.1 } }
    let db1 := setTable db tableName t1
    if res.2.length > 0 then (appendSafety db1 tableName res.2 now, none)
    else (db1, none)

/-- safety.Delete at database level. -/
def SafetyDelete (db : Database) (tableName : String) (filter : Row → Bool)
    (now : Nat) : Database × Option String :=
  match lookupTable db tableName with
  | none => (db, some ("table not found"))
  | some t =>
    let res := safetyDeleteHeap t.hotHeap.Rows filter
    let t1 := { t with hotHeap := { t.hotHeap with Rows := res.1 } }
    let db1 := setTable db tableName t1
    if res.2.length > 0 then (appendSafety db1 tableName res.2 now, none)
    else (db1, none)

/-- Truncation of a nanosecond timestamp to one second granularity:
two times are equal after Truncate(time.Second) exactly when their
second counts agree. -/
def truncSec (t : Nat) : Nat := t / 1000000000

/-- Append a restored row to the hot heap of the named table; no
unique index validation or update happens. -/
def appendRowToTable (db : Database) (name : String) (r : Row) : Database :=
  { db with Tables := db.Tables.map (fun p =>
      if p.1 == name then
        (p.1, { p.2 with hotHeap :=
          { p.2.hotHeap with Rows := p.2.hotHeap.Rows ++ [r] } })
      else p) }

/-- The scan loop of safety.Restore over the decoded safety log:
corrupt records are skipped; a record whose truncated timestamp equals
the truncated request is reinstated and the scan stops, but only when
its table is currently defined, otherwise the scan continues; an
exhausted log yields the recovery point not found error. -/
def restoreScan (db : Database) (timestamp : Nat) :
    List LogRecord → Database × Except String Unit
  | [] => (db, Except.error ("recovery point not found"))
  | LogRecord.corrupt :: rest => restoreScan db timestamp rest
  | LogRecord.good b :: rest =>
    if truncSec b.Timestamp == truncSec timestamp then
      match lookupTable db b.TableName with
      | some _ => (appendRowToTable db b.TableName b.Data, Except.ok ())
      | none => restoreScan db timestamp rest
    else restoreScan db timestamp rest

/-- safety.Restore: confirmation is required; without it the call is a
failing no-op. With it the safety log is scanned from the start. -/
def Restore (db : Database) (timestamp : Nat) (accepted : Bool) :
    Database × Except String Unit :=
  if accepted then restoreScan db timestamp db.SafetyLog
  else (db, Except.error ("recovery aborted"))

/-- The Go currentFieldMap is built by inserting every current field
under its name, so a duplicated name keeps the last occurrence. -/
def lookupFieldLast : List Field → String → Option Field
  | [], _ => none
  | f :: rest, key =>
    match lookupFieldLast rest key with
    | some g => some g
    | none => if f.Name == key then some f else none

/-- First DiffSchema loop, over the proposed field list: a common field
with a changed type clears Compatiable and records a mismatch; an
unknown field records an addition. -/
def diffNewFields (cur : List Field) : List Field → ConflictReport → ConflictReport
  | [], rep => rep
  | f :: rest, rep =>
    let rep1 :=
      match lookupFieldLast cur f.Name with
      | some oldF =>
        if oldF.typ ≠ f.typ then
          { rep with
              Compatiable := false
              Conflicts := rep.Conflicts ++ [Conflict.typeMismatch f.Name oldF.typ f.typ] }
        else rep
      | none => { rep with Conflicts := rep.Conflicts ++ [Conflict.fieldAdd f.Name] }
    diffNewFields cur rest rep1

/-- Second DiffSchema loop, over the names of the current field map:
a name absent from the new field list sets Destructive and records a
removal. -/
def diffRemoved (newFields : List Field) : List String → ConflictReport → ConflictReport
  | [], rep => rep
  | n :: rest, rep =>
    let rep1 :=
      if newFields.any (fun f => f.Name == n) then rep
      else
        { rep with
            Destructive := true
            Conflicts := rep.Conflicts ++ [Conflict.fieldRemove n] }
    diffRemoved newFields rest rep1

/-- Each distinct name once, in first occurrence order, standing for
the key set of the Go currentFieldMap. -/
def dedupNames : List String → List String
  | [] => []
  | n :: rest => n :: (dedupNames rest).filter (fun m => !(m == n))

/-- Database.DiffSchema. A table without a current schema yields the
TABLE_NEW report, compatible and non destructive. -/
def diffSchema (db : Database) (tableName : String) (newFields : List Field) :
    ConflictReport :=
  match lookupAssoc db.Schemas tableName with
  | none =>
    { Compatiable := true, Destructive := false, Conflicts := [Conflict.tableNew] }
  | some cur =>
    let rep := diffNewFields cur.Fields newFields
      { Compatiable := true, Destructive := false, Conflicts := [] }
    diffRemoved newFields (dedupNames (cur.Fields.map Field.Name)) rep

/-- Rebuilding the unique indices of a table from scratch by rescanning
every sealed clump and the live hot heap, as SyncSchema does. The scan
adds a value only when the row has the field, which is exactly the
applyIndices behavior. -/
def rebuildIndices (newFields : List Field) (t : Table) : UniqueIndices :=
  let idx0 := buildIndices newFields
  let idx1 := ((t.SealedClumps.map SealedClump.Rows).flatten).foldl
    (fun acc r => applyIndices newFields acc r) idx0
  t.hotHeap.Rows.foldl (fun acc r => applyIndices newFields acc r) idx1

/-- Database.SyncSchema: an incompatible diff fails before any state is
touched; otherwise the schema is replaced (version kept at 1 as in the
source) and the unique indices are rebuilt from the stored rows. -/
def SyncSchema (db : Database) (tableName : String) (newFields : List Field) :
    Database × Option String :=
  let report := diffSchema db tableName newFields
  if report.Compatiable = false then
    (db, some ("incompatible schema change"))
  else
    let schema : Schema := { Version := 1, Fields := newFields }
    let db1 := { db with Schemas := setAssoc db.Schemas tableName schema }
    match lookupTable db1 tableName with
    | none => (db1, none)
    | some t =>
      let t1 := { t with
        schema := schema
        UniqueIndices := rebuildIndices newFields t }
      (setTable db1 tableName t1, none)

/-- Modelled from the spec: the symbolic codec lives in the crypto
package, which is not under src. Every byte value 0 to 255 is mapped
to a fixed distinct four byte printable symbol; the concrete symbol
table is a stand in with the same shape (a four byte sequence whose
last two bytes determine the value). -/
def emojiSymbol (b : Nat) : List Nat :=
  [240, 159, 152 + b / 64, 128 + b % 64]

/-- Modelled from the spec: EncodeToEmojis maps each byte of the input
to its symbol and concatenates. -/
def EncodeToEmojis (bytes : List Nat) : List Nat :=
  (bytes.map emojiSymbol).flatten

/-- Modelled from the spec: DecodeOne reads exactly one symbol from the
stream and returns its byte value, failing with the unknown symbol
error when the next bytes match no table entry. -/
def DecodeOne : List Nat → Except String (Nat × List Nat)
  | a :: a2 :: x :: y :: rest =>
    if a = 240 ∧ a2 = 159 ∧ 152 ≤ x ∧ x < 156 ∧ 128 ≤ y ∧ y < 192 then
      Except.ok ((x - 152) * 64 + (y - 128), rest)
    else Except.error ("unknown symbol")
  | _ => Except.error ("unknown symbol")

/-- Modelled from the spec: decoding a whole symbol stream back to
bytes, one symbol at a time, propagating the unknown symbol error. -/
def decodeEmojis : List Nat → Except String (List Nat)
  | [] => Except.ok []
  | a :: a2 :: x :: y :: rest =>
    if a = 240 ∧ a2 = 159 ∧ 152 ≤ x ∧ x < 156 ∧ 128 ≤ y ∧ y < 192 then
      match decodeEmojis rest with
      | Except.ok bs => Except.ok (((x - 152) * 64 + (y - 128)) :: bs)
      | Except.error e => Except.error e
    else Except.error ("unknown symbol")
  | _ => Except.error ("unknown symbol")

/-- The set of table names present in the database. -/
def tableNames (db : Database) : List String :=
  db.Tables.map (fun p => p.1)

theorem tableNames_appendRowToTable (db : Database) (n : String) (r : Row) :
    tableNames (appendRowToTable db n r) = tableNames db := by
  simp only [tableNames, appendRowToTable]
  generalize db.Tables = l
  induction l with
  | nil => rfl
  | cons p rest ih =>
    simp only [List.map_cons]
    rw [ih]
    by_cases h : p.1 == n
    · simp [h]
    · simp [h]

theorem tableNames_restoreScan (db : Database) (ts : Nat) (log : List LogRecord) :
    tableNames (restoreScan db ts log).1 = tableNames db := by
  induction log with
  | nil => rfl
  | cons rec rest ih =>
    cases rec with
    | corrupt => simpa [restoreScan] using ih
    | good b =>
      simp only [restoreScan]
      by_cases h : truncSec b.Timestamp == truncSec ts
      · simp only [h, if_pos]
        cases hl : lookupTable db b.TableName with
        | some t => simp [tableNames_appendRowToTable]
        | none => simpa using ih
      · simp only [h]
        simpa using ih

/-- C10: a safety log record whose truncated timestamp matches the
request but whose table is not currently defined is passed over without
error, the scan continuing with the remaining records, and the restore
scan never changes the set of defined tables (in particular it never
creates the missing table). -/
theorem c10_unknown_table_skipped (db : Database) (ts : Nat)
    (b : SafetyBackup) (rest : List LogRecord)
    (hmiss : lookupTable db b.TableName = none)
    (hts : truncSec b.Timestamp = truncSec ts) :
    restoreScan db ts (LogRecord.good b :: rest) = restoreScan db ts rest ∧
    ∀ log : List LogRecord, tableNames (restoreScan db ts log).1 = tableNames db := by
  refine ⟨?_, fun log => tableNames_restoreScan db ts log⟩
  simp [restoreScan, hts, hmiss]

def c10Table : Table := freshTable "known" { Version := 1, Fields := [] } 0 1000

def c10Db : Database :=
  { Schemas := [], Tables := [("known", c10Table)], SafetyLog := [], DataLog := [] }

def c10Backup : SafetyBackup :=
  { TableName := "ghost", Timestamp := 5, Data := [("a", Value.vInt 1)] }

theorem c10_unknown_table_skipped_witness :
    restoreScan c10Db 5 [LogRecord.good c10Backup] = restoreScan c10Db 5 [] ∧
    tableNames (restoreScan c10Db 5 [LogRecord.good c10Backup]).1 = tableNames c10Db :=
  ⟨(c10_unknown_table_skipped c10Db 5 c10Backup [] (by decide) (by decide)).1,
   (c10_unknown_table_skipped c10Db 5 c10Backup [] (by decide) (by decide)).2
     [LogRecord.good c10Backup]⟩

/-- C9: flushing a table whose live hot heap is empty succeeds and
changes nothing: no clump is sealed or persisted and the whole database
state, data file included, is returned unchanged. -/
theorem c9_flush_empty_heap_noop (db : Database) (tableName : String)
    (t : Table) (now : Nat)
    (h : lookupTable db tableName = some t) (he : t.hotHeap.Rows = []) :
    DBFlush db tableName now = (db, none) := by
  unfold DBFlush
  rw [h]
  simp [he]

def c9Db : Database :=
  { Schemas := []
    Tables := [("a", freshTable "a" { Version := 1, Fields := [] } 0 1000)]
    SafetyLog := []
    DataLog := [] }

theorem c9_flush_empty_heap_noop_witness :
    DBFlush c9Db "a" 5 = (c9Db, none) :=
  c9_flush_empty_heap_noop c9Db "a"
    (freshTable "a" { Version := 1, Fields := [] } 0 1000) 5 (by decide) (by decide)

/-- The first safety log record whose truncated timestamp equals the
truncated request, as the claim describes the selection. -/
def firstTsMatch (timestamp : Nat) : List LogRecord → Option SafetyBackup
  | [] => none
  | LogRecord.corrupt :: rest => firstTsMatch timestamp rest
  | LogRecord.good b :: rest =>
    if truncSec b.Timestamp == truncSec timestamp then some b
    else firstTsMatch timestamp rest

theorem restoreScan_eq_firstTsMatch (db : Database) (ts : Nat)
    (log : List LogRecord)
    (hknown : ∀ b, LogRecord.good b ∈ log → (lookupTable db b.TableName).isSome) :
    restoreScan db ts log =
      match firstTsMatch ts log with
      | some b => (appendRowToTable db b.TableName b.Data, Except.ok ())
      | none => (db, Except.error ("recovery point not found")) := by
  induction log with
  | nil => rfl
  | cons rec rest ih =>
    cases rec with
    | corrupt =>
      simp only [restoreScan, firstTsMatch]
      exact ih (fun b hb => hknown b (List.mem_cons_of_mem _ hb))
    | good b =>
      by_cases hts : truncSec b.Timestamp == truncSec ts
      · have hk := hknown b (List.mem_cons_self _ _)
        obtain ⟨t, ht⟩ := Option.isSome_iff_exists.mp hk
        simp [restoreScan, firstTsMatch, hts, ht]
      · simp only [restoreScan, firstTsMatch, hts, if_false, Bool.false_eq_true]
        exact ih (fun b hb => hknown b (List.mem_cons_of_mem _ hb))

/-- C5: Restore with accepted false is a failing no-op; with accepted
true, provided every safety log record names a currently defined table,
it reinstates exactly the first record whose timestamp truncated to one
second equals the truncated request, appending its row to the target
hot heap without any unique index update, and stopping; when no record
matches it fails with the recovery point not found error, the state
unchanged. -/
theorem c5_restore_semantics (db : Database) (ts : Nat)
    (hknown : ∀ b, LogRecord.good b ∈ db.SafetyLog →
      (lookupTable db b.TableName).isSome) :
    Restore db ts false = (db, Except.error ("recovery aborted")) ∧
    (∀ b, firstTsMatch ts db.SafetyLog = some b →
      Restore db ts true = (appendRowToTable db b.TableName b.Data, Except.ok ())) ∧
    (firstTsMatch ts db.SafetyLog = none →
      Restore db ts true = (db, Except.error ("recovery point not found"))) := by
  refine ⟨rfl, ?_, ?_⟩
  · intro b hb
    show restoreScan db ts db.SafetyLog = _
    rw [restoreScan_eq_firstTsMatch db ts db.SafetyLog hknown, hb]
  · intro hb
    show restoreScan db ts db.SafetyLog = _
    rw [restoreScan_eq_firstTsMatch db ts db.SafetyLog hknown, hb]

def c5Table : Table := freshTable "t" { Version := 1, Fields := [] } 0 1000

def c5Backup : SafetyBackup :=
  { TableName := "t", Timestamp := 1000000001, Data := [("a", Value.vInt 1)] }

def c5Db : Database :=
  { Schemas := []
    Tables := [("t", c5Table)]
    SafetyLog := [LogRecord.corrupt, LogRecord.good c5Backup]
    DataLog := [] }

theorem c5_restore_semantics_witness :
    Restore c5Db 1999999999 false = (c5Db, Except.error ("recovery aborted")) ∧
    Restore c5Db 1999999999 true =
      (appendRowToTable c5Db "t" [("a", Value.vInt 1)], Except.ok ()) := by
  have h := c5_restore_semantics c5Db 1999999999
    (by intro b hb; simp [c5Db] at hb; subst hb; decide)
  exact ⟨h.1, h.2.1 c5Backup (by decide)⟩

theorem insertT_no_constraints (t : Table) (r : Row) (now : Nat)
    (hf : t.schema.Fields = [])
    (hlt : t.hotHeap.Rows.length + 1 < t.hotHeap.MaxRows) :
    insertT t r now =
      ({ t with hotHeap := { t.hotHeap with Rows := t.hotHeap.Rows ++ [r] } },
        none, none) := by
  unfold insertT
  rw [hf]
  simp only [checkRecord, applyIndices]
  unfold sealCheck
  rw [if_neg (by simp; omega)]

theorem insertT_seal_eq (t : Table) (r : Row) (now : Nat)
    (hf : t.schema.Fields = [])
    (hge : t.hotHeap.Rows.length + 1 ≥ t.hotHeap.MaxRows) :
    (insertT t r now).1 =
      { t with
        SealedClumps := t.SealedClumps ++
          [{ Rows := t.hotHeap.Rows ++ [r],
             SealedAt := now,
             Metadata := { RowCount := (t.hotHeap.Rows ++ [r]).length,
                           CreatedAt := t.hotHeap.CreatedAt,
                           SchemaVersion := t.schema.Version } }],
        hotHeap := NewHotHeap now 1000 } := by
  unfold insertT
  rw [hf]
  simp only [checkRecord, applyIndices]
  unfold sealCheck mkClump
  rw [if_pos (by simp; omega)]

theorem foldl_insertT_below_capacity (rows : List Row) (t : Table) (now : Nat)
    (hf : t.schema.Fields = [])
    (hlt : t.hotHeap.Rows.length + rows.length < t.hotHeap.MaxRows) :
    rows.foldl (fun acc r => (insertT acc r now).1) t =
      { t with hotHeap := { t.hotHeap with Rows := t.hotHeap.Rows ++ rows } } := by
  induction rows generalizing t with
  | nil => simp
  | cons r rest ih =>
    simp only [List.foldl_cons,
      insertT_no_constraints t r now hf (by simp at hlt; omega)]
    rw [ih { t with hotHeap := { t.hotHeap with Rows := t.hotHeap.Rows ++ [r] } }
      (by simpa using hf) (by simp at hlt ⊢; omega)]
    simp

/-- C4: the seal threshold is checked after each insert. Starting from
an empty table whose hot heap capacity is c (with an empty schema so
every insert passes validation), inserting exactly c rows yields
exactly one sealed clump holding those c rows and an empty live hot
heap, and one further insert leaves that single clump untouched and a
hot heap holding exactly the one extra row. -/
theorem c4_seal_threshold (c : Nat) (rows : List Row) (extra : Row)
    (name : String) (now0 now : Nat) (t0 t1 : Table)
    (hc : 0 < c) (hlen : rows.length = c)
    (ht0 : t0 = freshTable name { Version := 1, Fields := [] } now0 c)
    (ht1 : t1 = rows.foldl (fun acc r => (insertT acc r now).1) t0) :
    t1.SealedClumps.map SealedClump.Rows = [rows] ∧
    t1.hotHeap.Rows = [] ∧
    (insertT t1 extra now).1.SealedClumps.map SealedClump.Rows = [rows] ∧
    (insertT t1 extra now).1.hotHeap.Rows = [extra] := by
  subst ht0 ht1
  rcases List.eq_nil_or_concat rows with hnil | ⟨front, last, hsplit⟩
  · subst hnil
    simp at hlen
    omega
  · subst hsplit
    have hfront : front.length + 1 = c := by simpa using hlen
    have ht1v : (front.concat last).foldl (fun acc r => (insertT acc r now).1)
        (freshTable name { Version := 1, Fields := [] } now0 c) =
        ⟨name, { Version := 1, Fields := [] }, NewHotHeap now 1000,
          [⟨front ++ [last], now, ⟨(front ++ [last]).length, now0, 1⟩⟩], []⟩ := by
      rw [List.concat_eq_append, List.foldl_append,
        foldl_insertT_below_capacity front _ now rfl
          (by simp [freshTable, NewHotHeap]; omega)]
      simp only [List.foldl_cons, List.foldl_nil]
      rw [insertT_seal_eq _ last now rfl
        (by simp [freshTable, NewHotHeap]; omega)]
      simp [freshTable, NewHotHeap, buildIndices]
    rw [ht1v]
    rw [insertT_no_constraints _ extra now rfl (by simp [NewHotHeap])]
    simp [NewHotHeap]

def c4T0 : Table := freshTable "p" { Version := 1, Fields := [] } 0 2

def c4Rows : List Row := [[("a", Value.vInt 1)], [("a", Value.vInt 2)]]

def c4T1 : Table := c4Rows.foldl (fun acc r => (insertT acc r 3).1) c4T0

theorem c4_seal_threshold_witness :
    c4T1.SealedClumps.map SealedClump.Rows = [c4Rows] ∧
    c4T1.hotHeap.Rows = [] ∧
    (insertT c4T1 [("b", Value.vInt 9)] 3).1.SealedClumps.map SealedClump.Rows
      = [c4Rows] ∧
    (insertT c4T1 [("b", Value.vInt 9)] 3).1.hotHeap.Rows
      = [[("b", Value.vInt 9)]] :=
  c4_seal_threshold 2 c4Rows [("b", Value.vInt 9)] "p" 0 3 c4T0 c4T1
    (by decide) (by decide) rfl rfl

theorem decodeOne_emojiSymbol (b : Nat) (rest : List Nat) (hb : b < 256) :
    DecodeOne (emojiSymbol b ++ rest) = Except.ok (b, rest) := by
  simp only [emojiSymbol, List.cons_append, List.nil_append, DecodeOne]
  rw [if_pos (by simp only [true_and]; omega)]
  rw [show (152 + b / 64 - 152) * 64 + (128 + b % 64 - 128) = b by omega]

theorem decodeEmojis_encode (B : List Nat) (hB : ∀ b ∈ B, b < 256) :
    decodeEmojis (EncodeToEmojis B) = Except.ok B := by
  induction B with
  | nil => rfl
  | cons b rest ih =>
    have hb : b < 256 := hB b (List.mem_cons_self _ _)
    have hrest := ih (fun x hx => hB x (List.mem_cons_of_mem _ hx))
    simp only [EncodeToEmojis, List.map_cons, List.flatten_cons, emojiSymbol,
      List.cons_append, List.nil_append, decodeEmojis]
    rw [if_pos (by simp only [true_and]; omega)]
    rw [show (152 + b / 64 - 152) * 64 + (128 + b % 64 - 128) = b by omega]
    have hrest2 : decodeEmojis (List.nil.append (List.map emojiSymbol rest).flatten)
        = Except.ok rest := hrest
    rw [hrest2]

/-- C8: the symbolic codec is a bijection between byte values 0..255
and 256 distinct symbols: decoding one symbol inverts encoding for
every byte value with any continuation, the symbol table is injective,
decoding inverts encoding on every byte sequence, and DecodeOne fails
with the unknown symbol error whenever the stream does not start with
a table entry. The crypto package is not under src, so the codec is
modelled from the spec. -/
theorem c8_codec_bijection :
    (∀ b rest, b < 256 → DecodeOne (emojiSymbol b ++ rest) = Except.ok (b, rest)) ∧
    (∀ b1 b2, b1 < 256 → b2 < 256 → emojiSymbol b1 = emojiSymbol b2 → b1 = b2) ∧
    (∀ B, (∀ b ∈ B, b < 256) → decodeEmojis (EncodeToEmojis B) = Except.ok B) ∧
    (∀ s, (¬ ∃ b rest, b < 256 ∧ s = emojiSymbol b ++ rest) →
      DecodeOne s = Except.error ("unknown symbol")) := by
  refine ⟨decodeOne_emojiSymbol, ?_, decodeEmojis_encode, ?_⟩
  · intro b1 b2 h1 h2 h
    simp only [emojiSymbol, List.cons.injEq] at h
    omega
  · intro s hs
    match s, hs with
    | [], _ => rfl
    | [_], _ => rfl
    | [_, _], _ => rfl
    | [_, _, _], _ => rfl
    | a :: a2 :: x :: y :: rest, hs =>
      have hneg : ¬(a = 240 ∧ a2 = 159 ∧ 152 ≤ x ∧ x < 156 ∧ 128 ≤ y ∧ y < 192) := by
        rintro ⟨rfl, rfl, h3, h4, h5, h6⟩
        refine hs ⟨(x - 152) * 64 + (y - 128), rest, by omega, ?_⟩
        simp only [emojiSymbol, List.cons_append, List.nil_append, List.cons.injEq,
          true_and, and_true]
        omega
      simp only [DecodeOne]
      rw [if_neg hneg]

theorem c8_codec_bijection_witness :
    DecodeOne (emojiSymbol 7 ++ [1, 2]) = Except.ok (7, [1, 2]) ∧
    decodeEmojis (EncodeToEmojis [0, 255, 128]) = Except.ok [0, 255, 128] ∧
    DecodeOne [99, 98, 97, 96, 95] = Except.error ("unknown symbol") :=
  ⟨c8_codec_bijection.1 7 [1, 2] (by decide),
   c8_codec_bijection.2.2.1 [0, 255, 128] (by decide),
   c8_codec_bijection.2.2.2 [99, 98, 97, 96, 95]
     (by rintro ⟨b, r, hb, h⟩; simp [emojiSymbol] at h)⟩

def c7Db : Database :=
  { Schemas := [], Tables := [], SafetyLog := [], DataLog := [] }

/-- C7 counterexample: Flush on a missing table reports the bare table
not found string, not the established named form the claim requires of
every operation. -/
theorem c7_counterexample :
    (DBFlush c7Db "users" 0).2 = some ("table not found") ∧
    ("table not found" ≠ "table not found: " ++ "users") := by
  constructor
  · rfl
  · decide

theorem checkRecord_error_forms (fields : List Field) (idx : UniqueIndices)
    (r : Row) (e : String) (h : checkRecord fields idx r = some e) :
    ∃ f ∈ fields, e = "missing field: " ++ f.Name ∨
      e = "unique constraint violation: " ++ f.Name := by
  induction fields with
  | nil => cases h
  | cons f rest ih =>
    simp only [checkRecord] at h
    split at h
    · refine ⟨f, List.mem_cons_self _ _, Or.inl ?_⟩
      injection h with h1
      exact h1.symm
    · split at h
      · refine ⟨f, List.mem_cons_self _ _, Or.inr ?_⟩
        injection h with h1
        exact h1.symm
      · obtain ⟨g, hg, hor⟩ := ih h
        exact ⟨g, List.mem_cons_of_mem _ hg, hor⟩

theorem checkRecordBatch_error_forms (fields : List Field) (idx : UniqueIndices)
    (earlier : List Row) (r : Row) (i : Nat) (e : String)
    (h : checkRecordBatch fields idx earlier r i = some e) :
    ∃ f ∈ fields,
      e = "row " ++ toString i ++ ": missing field: " ++ f.Name ∨
      e = "row " ++ toString i ++ ": unique constraint violation: " ++ f.Name ∨
      e = "row " ++ toString i ++ ": duplicate value in batch for field: " ++ f.Name := by
  induction fields with
  | nil => cases h
  | cons f rest ih =>
    simp only [checkRecordBatch] at h
    split at h
    · refine ⟨f, List.mem_cons_self _ _, Or.inl ?_⟩
      injection h with h1
      exact h1.symm
    · split at h
      · split at h
        · refine ⟨f, List.mem_cons_self _ _, Or.inr (Or.inl ?_)⟩
          injection h with h1
          exact h1.symm
        · split at h
          · refine ⟨f, List.mem_cons_self _ _, Or.inr (Or.inr ?_)⟩
            injection h with h1
            exact h1.symm
          · obtain ⟨g, hg, hor⟩ := ih h
            exact ⟨g, List.mem_cons_of_mem _ hg, hor⟩
      · obtain ⟨g, hg, hor⟩ := ih h
        exact ⟨g, List.mem_cons_of_mem _ hg, hor⟩

theorem validateBatch_error_forms (fields : List Field) (idx : UniqueIndices)
    (rs : List Row) (earlier : List Row) (i : Nat) (e : String)
    (h : validateBatch fields idx rs earlier i = some e) :
    ∃ (j : Nat) (f : Field), f ∈ fields ∧
      (e = "row " ++ toString j ++ ": missing field: " ++ f.Name ∨
       e = "row " ++ toString j ++ ": unique constraint violation: " ++ f.Name ∨
       e = "row " ++ toString j ++ ": duplicate value in batch for field: " ++ f.Name) := by
  induction rs generalizing earlier i with
  | nil => cases h
  | cons r rest ih =>
    simp only [validateBatch] at h
    split at h
    · rename_i e0 hc
      injection h with h1
      subst h1
      obtain ⟨f, hf, hor⟩ := checkRecordBatch_error_forms fields idx earlier r i e0 hc
      exact ⟨i, f, hf, hor⟩
    · exact ih _ _ h

/-- C7 amended: Insert and BulkInsert report a missing table in the
named form; an Insert constraint failure uses exactly the established
missing field and unique constraint violation forms; BulkInsert
constraint failures carry the same forms behind a row index marker;
but Flush, safety Update and safety Delete report a missing table as
the bare table not found string without the table name. -/
theorem c7_error_string_forms (db : Database) (tableName : String)
    (record : Row) (records : List Row) (filter : Row → Bool) (patch : Row)
    (now : Nat) (hmiss : lookupTable db tableName = none) :
    (DBInsert db tableName record now).2 = some ("table not found: " ++ tableName) ∧
    (DBBulkInsert db tableName records now).2 = some ("table not found: " ++ tableName) ∧
    (DBFlush db tableName now).2 = some ("table not found") ∧
    (SafetyUpdate db tableName filter patch now).2 = some ("table not found") ∧
    (SafetyDelete db tableName filter now).2 = some ("table not found") ∧
    (∀ fields idx r e, checkRecord fields idx r = some e →
      ∃ f ∈ fields, e = "missing field: " ++ f.Name ∨
        e = "unique constraint violation: " ++ f.Name) ∧
    (∀ fields idx rs e, validateBatch fields idx rs [] 0 = some e →
      ∃ (j : Nat) (f : Field), f ∈ fields ∧
        (e = "row " ++ toString j ++ ": missing field: " ++ f.Name ∨
         e = "row " ++ toString j ++ ": unique constraint violation: " ++ f.Name ∨
         e = "row " ++ toString j ++ ": duplicate value in batch for field: " ++ f.Name)) := by
  refine ⟨?_, ?_, ?_, ?_, ?_,
    fun fields idx r e h => checkRecord_error_forms fields idx r e h,
    fun fields idx rs e h => validateBatch_error_forms fields idx rs [] 0 e h⟩
  · simp [DBInsert, hmiss]
  · simp [DBBulkInsert, hmiss]
  · simp [DBFlush, hmiss]
  · simp [SafetyUpdate, hmiss]
  · simp [SafetyDelete, hmiss]

theorem c7_error_string_forms_witness :
    (DBInsert c7Db "users" [] 0).2 = some ("table not found: " ++ "users") ∧
    (DBFlush c7Db "users" 0).2 = some ("table not found") :=
  ⟨(c7_error_string_forms c7Db "users" [] [] (fun _ => true) [] 0 rfl).1,
   (c7_error_string_forms c7Db "users" [] [] (fun _ => true) [] 0 rfl).2.2.1⟩

/-- The type clash test of the first DiffSchema loop for one proposed
field, as a boolean. -/
def typeClash (cur : List Field) (f : Field) : Bool :=
  match lookupFieldLast cur f.Name with
  | some g => decide (g.typ ≠ f.typ)
  | none => false

theorem diffNewFields_Compatiable (cur nf : List Field) (rep : ConflictReport) :
    (diffNewFields cur nf rep).Compatiable =
      (rep.Compatiable && !(nf.any (typeClash cur))) := by
  induction nf generalizing rep with
  | nil => simp [diffNewFields]
  | cons f rest ih =>
    cases hl : lookupFieldLast cur f.Name with
    | none =>
      simp only [diffNewFields, hl, List.any_cons]
      rw [ih]
      simp [typeClash, hl]
    | some g =>
      by_cases ht : g.typ ≠ f.typ
      · simp only [diffNewFields, hl, List.any_cons, if_pos ht]
        rw [ih]
        simp [typeClash, hl, ht]
      · have ht2 : g.typ = f.typ := not_ne_iff.mp ht
        simp only [diffNewFields, hl, List.any_cons, if_neg ht]
        rw [ih]
        simp [typeClash, hl, ht2]

theorem diffNewFields_Destructive (cur nf : List Field) (rep : ConflictReport) :
    (diffNewFields cur nf rep).Destructive = rep.Destructive := by
  induction nf generalizing rep with
  | nil => rfl
  | cons f rest ih =>
    cases hl : lookupFieldLast cur f.Name with
    | none =>
      simp only [diffNewFields, hl]
      rw [ih]
    | some g =>
      by_cases ht : g.typ ≠ f.typ
      · simp only [diffNewFields, hl, if_pos ht]
        rw [ih]
      · simp only [diffNewFields, hl, if_neg ht]
        rw [ih]

theorem diffRemoved_Compatiable (nf : List Field) (names : List String)
    (rep : ConflictReport) :
    (diffRemoved nf names rep).Compatiable = rep.Compatiable := by
  induction names generalizing rep with
  | nil => rfl
  | cons n rest ih =>
    simp only [diffRemoved]
    by_cases hn : nf.any (fun f => f.Name == n)
    · rw [if_pos hn, ih]
    · rw [if_neg hn, ih]

theorem diffRemoved_Destructive (nf : List Field) (names : List String)
    (rep : ConflictReport) :
    (diffRemoved nf names rep).Destructive =
      (rep.Destructive || names.any (fun n => !(nf.any (fun f => f.Name == n)))) := by
  induction names generalizing rep with
  | nil => simp [diffRemoved]
  | cons n rest ih =>
    simp only [diffRemoved, List.any_cons]
    by_cases hn : nf.any (fun f => f.Name == n)
    · rw [if_pos hn, ih]
      simp [hn]
    · rw [if_neg hn, ih]
      simp [hn, Bool.eq_false_iff.mpr hn]

theorem mem_diffNewFields_Conflicts (cur nf : List Field) (rep : ConflictReport)
    (c : Conflict) (h : c ∈ rep.Conflicts) :
    c ∈ (diffNewFields cur nf rep).Conflicts := by
  induction nf generalizing rep with
  | nil => exact h
  | cons f rest ih =>
    cases hl : lookupFieldLast cur f.Name with
    | none =>
      simp only [diffNewFields, hl]
      exact ih _ (by simp [h])
    | some g =>
      by_cases ht : g.typ ≠ f.typ
      · simp only [diffNewFields, hl, if_pos ht]
        exact ih _ (by simp [h])
      · simp only [diffNewFields, hl, if_neg ht]
        exact ih _ h

theorem mem_diffRemoved_Conflicts (nf : List Field) (names : List String)
    (rep : ConflictReport) (c : Conflict) (h : c ∈ rep.Conflicts) :
    c ∈ (diffRemoved nf names rep).Conflicts := by
  induction names generalizing rep with
  | nil => exact h
  | cons n rest ih =>
    simp only [diffRemoved]
    by_cases hn : nf.any (fun f => f.Name == n)
    · rw [if_pos hn]
      exact ih _ h
    · rw [if_neg hn]
      exact ih _ (by simp [h])

theorem typeMismatch_mem_diffNewFields (cur nf : List Field)
    (rep : ConflictReport) (f g : Field) (hf : f ∈ nf)
    (hl : lookupFieldLast cur f.Name = some g) (ht : g.typ ≠ f.typ) :
    Conflict.typeMismatch f.Name g.typ f.typ ∈ (diffNewFields cur nf rep).Conflicts := by
  induction nf generalizing rep with
  | nil => cases hf
  | cons a rest ih =>
    rcases List.mem_cons.mp hf with rfl | hf2
    · simp only [diffNewFields, hl, if_pos ht]
      exact mem_diffNewFields_Conflicts cur rest _ _ (by simp)
    · cases hla : lookupFieldLast cur a.Name with
      | none =>
        simp only [diffNewFields, hla]
        exact ih _ hf2
      | some g2 =>
        by_cases hta : g2.typ ≠ a.typ
        · simp only [diffNewFields, hla, if_pos hta]
          exact ih _ hf2
        · simp only [diffNewFields, hla, if_neg hta]
          exact ih _ hf2

theorem mem_dedupNames (l : List String) (m : String) :
    m ∈ dedupNames l ↔ m ∈ l := by
  induction l with
  | nil => simp [dedupNames]
  | cons n rest ih =>
    by_cases h : m = n
    · subst h
      simp [dedupNames]
    · simp only [dedupNames, List.mem_cons, List.mem_filter]
      constructor
      · rintro (rfl | ⟨hm, _⟩)
        · exact Or.inl rfl
        · exact Or.inr (ih.mp hm)
      · rintro (rfl | hm)
        · exact Or.inl rfl
        · exact Or.inr ⟨ih.mpr hm, by simp [h]⟩

/-- C6: for a table with a current schema, DiffSchema reports
Compatiable false exactly when some proposed field shares its name with
a current field of a different type (and then a TYPE_MISMATCH conflict
naming that field is present), reports Destructive true exactly when
some current field name is absent from the proposed list, and purely
additive fields change neither flag. -/
theorem c6_diff_schema (db : Database) (tableName : String) (cur : Schema)
    (newFields : List Field)
    (h : lookupAssoc db.Schemas tableName = some cur) :
    ((diffSchema db tableName newFields).Compatiable = false ↔
      ∃ f ∈ newFields, ∃ g, lookupFieldLast cur.Fields f.Name = some g ∧
        g.typ ≠ f.typ) ∧
    ((diffSchema db tableName newFields).Destructive = true ↔
      ∃ g ∈ cur.Fields, ∀ f ∈ newFields, f.Name ≠ g.Name) ∧
    (∀ f ∈ newFields, ∀ g, lookupFieldLast cur.Fields f.Name = some g →
      g.typ ≠ f.typ →
      Conflict.typeMismatch f.Name g.typ f.typ ∈
        (diffSchema db tableName newFields).Conflicts) := by
  refine ⟨?_, ?_, ?_⟩
  · rw [show (diffSchema db tableName newFields).Compatiable =
        !(newFields.any (typeClash cur.Fields)) by
      simp [diffSchema, h, diffRemoved_Compatiable, diffNewFields_Compatiable]]
    simp only [Bool.not_eq_false', List.any_eq_true]
    constructor
    · rintro ⟨f, hf, hc⟩
      cases hl : lookupFieldLast cur.Fields f.Name with
      | none =>
        simp only [typeClash, hl] at hc
        exact Bool.noConfusion hc
      | some g =>
        simp only [typeClash, hl, decide_eq_true_eq] at hc
        exact ⟨f, hf, g, hl, hc⟩
    · rintro ⟨f, hf, g, hl, ht⟩
      refine ⟨f, hf, ?_⟩
      simp only [typeClash, hl, decide_eq_true_eq]
      exact ht
  · rw [show (diffSchema db tableName newFields).Destructive =
        ((dedupNames (cur.Fields.map Field.Name)).any
          (fun n => !(newFields.any (fun f => f.Name == n)))) by
      simp [diffSchema, h, diffRemoved_Destructive, diffNewFields_Destructive]]
    simp only [List.any_eq_true, Bool.not_eq_true', List.any_eq_false]
    constructor
    · rintro ⟨n, hn, hall⟩
      obtain ⟨g, hg, hgn⟩ := List.mem_map.mp ((mem_dedupNames _ _).mp hn)
      refine ⟨g, hg, fun f hf => ?_⟩
      have := hall f hf
      subst hgn
      simpa using this
    · rintro ⟨g, hg, hall⟩
      refine ⟨g.Name, (mem_dedupNames _ _).mpr (List.mem_map_of_mem _ hg),
        fun f hf => by simpa using hall f hf⟩
  · intro f hf g hl ht
    simp only [diffSchema, h]
    exact mem_diffRemoved_Conflicts _ _ _ _
      (typeMismatch_mem_diffNewFields _ _ _ f g hf hl ht)

def c6Schema : Schema :=
  { Version := 1
    Fields := [{ Name := "id", typ := FieldType.int, Unique := false },
               { Name := "name", typ := FieldType.string, Unique := false }] }

def c6Db : Database :=
  { Schemas := [("users", c6Schema)], Tables := [], SafetyLog := [], DataLog := [] }

def c6NF1 : List Field :=
  [{ Name := "id", typ := FieldType.int, Unique := false },
   { Name := "name", typ := FieldType.int, Unique := false }]

def c6NF2 : List Field :=
  [{ Name := "id", typ := FieldType.int, Unique := false }]

theorem c6_diff_schema_witness :
    (diffSchema c6Db "users" c6NF1).Compatiable = false ∧
    Conflict.typeMismatch "name" FieldType.string FieldType.int ∈
      (diffSchema c6Db "users" c6NF1).Conflicts ∧
    (diffSchema c6Db "users" c6NF2).Destructive = true ∧
    (diffSchema c6Db "users" c6NF2).Compatiable = true := by
  have h1 := c6_diff_schema c6Db "users" c6Schema c6NF1 (by decide)
  have h2 := c6_diff_schema c6Db "users" c6Schema c6NF2 (by decide)
  refine ⟨?_, ?_, ?_, ?_⟩
  · exact h1.1.mpr ⟨{ Name := "name", typ := FieldType.int, Unique := false },
      by decide, { Name := "name", typ := FieldType.string, Unique := false },
      by decide, by decide⟩
  · exact h1.2.2 { Name := "name", typ := FieldType.int, Unique := false }
      (by decide) { Name := "name", typ := FieldType.string, Unique := false }
      (by decide) (by decide)
  · exact h2.2.1.mpr ⟨{ Name := "name", typ := FieldType.string, Unique := false },
      by decide, by decide⟩
  · decide

/-- The invalid batch condition of the claim: some row of the batch
misses a schema field, or carries a unique field value already present
in the index, or repeats a unique field value of an earlier batch row. -/
def batchInvalid (t : Table) (records : List Row) : Prop :=
  ∃ i, i < records.length ∧ ∃ f ∈ t.schema.Fields,
    rowGet (records.getD i []) f.Name = none ∨
    (f.Unique = true ∧ ∃ v, rowGet (records.getD i []) f.Name = some v ∧
      (idxHas t.UniqueIndices f.Name v = true ∨
       ∃ j, j < i ∧ rowGet (records.getD j []) f.Name = some v))

theorem checkRecordBatch_none_sound (fields : List Field) (idx : UniqueIndices)
    (earlier : List Row) (r : Row) (i : Nat)
    (h : checkRecordBatch fields idx earlier r i = none) :
    ∀ g ∈ fields, (∃ v, rowGet r g.Name = some v) ∧
      (g.Unique = true → ∀ v, rowGet r g.Name = some v →
        idxHas idx g.Name v = false ∧
        ∀ rj ∈ earlier, ¬(rowGet rj g.Name = some v)) := by
  induction fields with
  | nil =>
    intro g hg
    cases hg
  | cons f rest ih =>
    intro g hg
    simp only [checkRecordBatch] at h
    split at h
    · cases h
    · rename_i v hv
      split at h
      · rename_i hu
        split at h
        · cases h
        · rename_i hidx
          split at h
          · cases h
          · rename_i hdup
            rcases List.mem_cons.mp hg with rfl | hg2
            · refine ⟨⟨v, hv⟩, fun _ w hw => ?_⟩
              rw [hv] at hw
              injection hw with hw2
              subst hw2
              refine ⟨Bool.eq_false_iff.mpr hidx, fun rj hrj hcon => ?_⟩
              refine hdup ?_
              simp only [List.any_eq_true]
              exact ⟨rj, hrj, by simp [hcon]⟩
            · exact ih h g hg2
      · rename_i hu
        rcases List.mem_cons.mp hg with rfl | hg2
        · exact ⟨⟨v, hv⟩, fun habs => absurd habs hu⟩
        · exact ih h g hg2

theorem validateBatch_none_sound (fields : List Field) (idx : UniqueIndices)
    (rs : List Row) (earlier : List Row) (i0 : Nat)
    (h : validateBatch fields idx rs earlier i0 = none) :
    ∀ k, k < rs.length →
      checkRecordBatch fields idx (earlier ++ rs.take k) (rs.getD k []) (i0 + k)
        = none := by
  induction rs generalizing earlier i0 with
  | nil =>
    intro k hk
    cases hk
  | cons r rest ih =>
    simp only [validateBatch] at h
    split at h
    · cases h
    · rename_i hc
      intro k hk
      cases k with
      | zero => simpa using hc
      | succ k2 =>
        have hres := ih _ _ h k2 (by simpa using hk)
        simp only [List.take_succ_cons, List.getD_cons_succ]
        rw [show earlier ++ r :: List.take k2 rest
          = (earlier ++ [r]) ++ List.take k2 rest by simp]
        rw [show i0 + (k2 + 1) = i0 + 1 + k2 by omega]
        exact hres

theorem getD_mem_take (rs : List Row) (i j : Nat) (hj : j < i)
    (hi : i ≤ rs.length) : rs.getD j [] ∈ rs.take i := by
  have hjl : j < rs.length := lt_of_lt_of_le hj hi
  have h1 : j < (rs.take i).length := by
    simp only [List.length_take]
    omega
  have h2 : (rs.take i).getD j [] = rs.getD j [] := by
    rw [List.getD_eq_getElem _ _ h1, List.getD_eq_getElem _ _ hjl]
    exact List.getElem_take _
  rw [← h2, List.getD_eq_getElem _ _ h1]
  exact List.getElem_mem h1

/-- C3: BulkInsert and SyncSchema are all-or-nothing. A batch holding
any invalid row (missing schema field, unique value already indexed, or
unique value repeated inside the batch) makes BulkInsert return an
error with the table value unchanged and no clump persisted, and a
SyncSchema whose diff is not Compatiable fails returning the database
unchanged. -/
theorem c3_all_or_nothing (t : Table) (records : List Row) (now : Nat)
    (db : Database) (tableName : String) (newFields : List Field)
    (hb : batchInvalid t records)
    (hs : (diffSchema db tableName newFields).Compatiable = false) :
    (∃ e, bulkInsertT t records now = (t, none, some e)) ∧
    (∃ e, SyncSchema db tableName newFields = (db, some e)) := by
  constructor
  · cases hv : validateBatch t.schema.Fields t.UniqueIndices records [] 0 with
    | some e =>
      refine ⟨e, ?_⟩
      simp [bulkInsertT, hv]
    | none =>
      exfalso
      obtain ⟨i, hi, f, hf, hcase⟩ := hb
      have hchk := validateBatch_none_sound _ _ _ _ _ hv i hi
      have hsound := checkRecordBatch_none_sound _ _ _ _ _ hchk f hf
      rcases hcase with hmiss | ⟨hu, v, hv2, hbad⟩
      · obtain ⟨w, hw⟩ := hsound.1
        rw [hmiss] at hw
        exact Option.noConfusion hw
      · have h2 := hsound.2 hu v hv2
        rcases hbad with hidx | ⟨j, hj, hdup⟩
        · rw [h2.1] at hidx
          exact Bool.noConfusion hidx
        · have hmem : records.getD j [] ∈ records.take i :=
            getD_mem_take records i j hj (le_of_lt hi)
          exact h2.2 _ (by simpa using hmem) hdup
  · refine ⟨"incompatible schema change", ?_⟩
    simp [SyncSchema, hs]

def c3Table : Table := freshTable "users"
  { Version := 1, Fields := [{ Name := "id", typ := FieldType.int, Unique := true }] }
  0 1000

def c3Batch : List Row := [[("id", Value.vInt 1)], [("id", Value.vInt 1)]]

def c3SchemaOld : Schema :=
  { Version := 1, Fields := [{ Name := "id", typ := FieldType.int, Unique := false }] }

def c3Db : Database :=
  { Schemas := [("users", c3SchemaOld)], Tables := [], SafetyLog := [], DataLog := [] }

def c3NF : List Field :=
  [{ Name := "id", typ := FieldType.string, Unique := false }]

theorem c3_all_or_nothing_witness :
    (∃ e, bulkInsertT c3Table c3Batch 0 = (c3Table, none, some e)) ∧
    (∃ e, SyncSchema c3Db "users" c3NF = (c3Db, some e)) :=
  c3_all_or_nothing c3Table c3Batch 0 c3Db "users" c3NF
    ⟨1, by decide, { Name := "id", typ := FieldType.int, Unique := true }, by decide,
      Or.inr ⟨rfl, Value.vInt 1, by decide, Or.inr ⟨0, by decide, by decide⟩⟩⟩
    (by decide)

/-- The claimed invariant: every unique index holds exactly the set of
values of its field across all rows of the table. -/
def indexAccurate (t : Table) : Prop :=
  ∀ F vs, idxLookup t.UniqueIndices F = some vs →
    ∀ v, v ∈ vs ↔ ∃ r ∈ t.allRows, rowGet r F = some v

/-- Index keys always name a unique schema field. -/
def indicesFromSchema (t : Table) : Prop :=
  ∀ F vs, idxLookup t.UniqueIndices F = some vs →
    ∃ f ∈ t.schema.Fields, f.Name = F ∧ f.Unique = true

theorem idxLookup_idxAdd_self (idx : UniqueIndices) (key : String) (v : Value) :
    idxLookup (idxAdd idx key v) key =
      (idxLookup idx key).map (fun vs => if vs.contains v then vs else vs ++ [v]) := by
  induction idx with
  | nil => rfl
  | cons p rest ih =>
    obtain ⟨f, vs⟩ := p
    by_cases h : f == key
    · simp [idxAdd, idxLookup, h]
    · simp [idxAdd, idxLookup, h, ih]

theorem idxLookup_idxAdd_other (idx : UniqueIndices) (key : String) (v : Value)
    (F : String) (h : F ≠ key) :
    idxLookup (idxAdd idx key v) F = idxLookup idx F := by
  induction idx with
  | nil => rfl
  | cons p rest ih =>
    obtain ⟨f, vs⟩ := p
    by_cases hk : f == key
    · have hf : ¬(f == F) = true := by
        simp only [beq_iff_eq] at hk ⊢
        subst hk
        exact fun hc => h hc.symm
      simp [idxAdd, idxLookup, hk, hf]
    · by_cases hF : f == F
      · simp [idxAdd, idxLookup, hk, hF]
      · simp [idxAdd, idxLookup, hk, hF, ih]

theorem idxLookup_idxAdd_isSome (idx : UniqueIndices) (key : String) (v : Value)
    (F : String) :
    (idxLookup (idxAdd idx key v) F).isSome = (idxLookup idx F).isSome := by
  by_cases h : F = key
  · subst h
    rw [idxLookup_idxAdd_self]
    cases idxLookup idx F <;> rfl
  · rw [idxLookup_idxAdd_other idx key v F h]

theorem idxLookup_applyIndices_isSome (fields : List Field) (idx : UniqueIndices)
    (r : Row) (F : String) :
    (idxLookup (applyIndices fields idx r) F).isSome = (idxLookup idx F).isSome := by
  induction fields generalizing idx with
  | nil => rfl
  | cons f rest ih =>
    simp only [applyIndices]
    by_cases hu : f.Unique
    · cases hg : rowGet r f.Name with
      | none => simp only [hu, if_true, hg]; exact ih idx
      | some v =>
        simp only [hu, if_true, hg]
        rw [ih (idxAdd idx f.Name v), idxLookup_idxAdd_isSome]
    · simp only [hu, if_false]
      exact ih idx

theorem mem_addValue (vs : List Value) (v w : Value) :
    (w ∈ (if vs.contains v then vs else vs ++ [v])) ↔ (w ∈ vs ∨ w = v) := by
  by_cases h : vs.contains v
  · rw [if_pos h]
    have hv : v ∈ vs := by simpa using h
    constructor
    · exact fun hw => Or.inl hw
    · rintro (hw | rfl)
      · exact hw
      · exact hv
  · rw [if_neg h]
    simp [List.mem_append]

theorem mem_applyIndices (fields : List Field) (idx : UniqueIndices) (r : Row)
    (F : String) (vs vs1 : List Value) (v : Value)
    (h0 : idxLookup idx F = some vs)
    (h1 : idxLookup (applyIndices fields idx r) F = some vs1) :
    v ∈ vs1 ↔ (v ∈ vs ∨
      ∃ f ∈ fields, f.Name = F ∧ f.Unique = true ∧ rowGet r F = some v) := by
  induction fields generalizing idx vs with
  | nil =>
    simp only [applyIndices] at h1
    rw [h0] at h1
    injection h1 with h2
    subst h2
    simp
  | cons f rest ih =>
    simp only [applyIndices] at h1
    by_cases hu : f.Unique
    · cases hg : rowGet r f.Name with
      | none =>
        simp only [hu, if_true, hg] at h1
        rw [ih idx vs h0 h1]
        constructor
        · rintro (hv | ⟨g, hgm, hgn, hgu, hgr⟩)
          · exact Or.inl hv
          · exact Or.inr ⟨g, List.mem_cons_of_mem _ hgm, hgn, hgu, hgr⟩
        · rintro (hv | ⟨g, hgm, hgn, hgu, hgr⟩)
          · exact Or.inl hv
          · rcases List.mem_cons.mp hgm with rfl | hgm2
            · rw [← hgn] at hgr
              rw [hg] at hgr
              exact Option.noConfusion hgr
            · exact Or.inr ⟨g, hgm2, hgn, hgu, hgr⟩
      | some w =>
        simp only [hu, if_true, hg] at h1
        by_cases hF : f.Name = F
        · subst hF
          have hsome : idxLookup (idxAdd idx f.Name w) f.Name =
              some (if vs.contains w then vs else vs ++ [w]) := by
            rw [idxLookup_idxAdd_self, h0]
            rfl
          rw [ih _ _ hsome h1, mem_addValue]
          constructor
          · rintro ((hv | rfl) | ⟨g, hgm, hgn, hgu, hgr⟩)
            · exact Or.inl hv
            · exact Or.inr ⟨f, List.mem_cons_self _ _, rfl, hu, hg⟩
            · exact Or.inr ⟨g, List.mem_cons_of_mem _ hgm, hgn, hgu, hgr⟩
          · rintro (hv | ⟨g, hgm, hgn, hgu, hgr⟩)
            · exact Or.inl (Or.inl hv)
            · rcases List.mem_cons.mp hgm with rfl | hgm2
              · rw [← hgn] at hgr
                rw [hg] at hgr
                injection hgr with hw
                exact Or.inl (Or.inr hw.symm)
              · exact Or.inr ⟨g, hgm2, hgn, hgu, hgr⟩
        · have hother : idxLookup (idxAdd idx f.Name w) F = some vs := by
            rw [idxLookup_idxAdd_other idx f.Name w F (fun hc => hF hc.symm), h0]
          rw [ih _ _ hother h1]
          constructor
          · rintro (hv | ⟨g, hgm, hgn, hgu, hgr⟩)
            · exact Or.inl hv
            · exact Or.inr ⟨g, List.mem_cons_of_mem _ hgm, hgn, hgu, hgr⟩
          · rintro (hv | ⟨g, hgm, hgn, hgu, hgr⟩)
            · exact Or.inl hv
            · rcases List.mem_cons.mp hgm with rfl | hgm2
              · exact absurd hgn hF
              · exact Or.inr ⟨g, hgm2, hgn, hgu, hgr⟩
    · simp only [hu, if_false] at h1
      rw [ih idx vs h0 h1]
      constructor
      · rintro (hv | ⟨g, hgm, hgn, hgu, hgr⟩)
        · exact Or.inl hv
        · exact Or.inr ⟨g, List.mem_cons_of_mem _ hgm, hgn, hgu, hgr⟩
      · rintro (hv | ⟨g, hgm, hgn, hgu, hgr⟩)
        · exact Or.inl hv
        · rcases List.mem_cons.mp hgm with rfl | hgm2
          · rw [hgu] at hu
            exact absurd rfl hu
          · exact Or.inr ⟨g, hgm2, hgn, hgu, hgr⟩

/-- The invariant carried through insert sequences, phrased on the
schema fields, the indices and the logical row list. -/
def accurOn (fields : List Field) (idx : UniqueIndices) (rows : List Row) : Prop :=
  (∀ F vs, idxLookup idx F = some vs →
    ∃ f ∈ fields, f.Name = F ∧ f.Unique = true) ∧
  (∀ F vs, idxLookup idx F = some vs →
    ∀ v, v ∈ vs ↔ ∃ r ∈ rows, rowGet r F = some v)

theorem accurOn_step (fields : List Field) (idx : UniqueIndices)
    (rows : List Row) (r : Row) (ha : accurOn fields idx rows) :
    accurOn fields (applyIndices fields idx r) (rows ++ [r]) := by
  obtain ⟨hdom, hmem⟩ := ha
  constructor
  · intro F vs h
    have hs : (idxLookup idx F).isSome = true := by
      rw [← idxLookup_applyIndices_isSome fields idx r F, h]
      rfl
    obtain ⟨vs0, hvs0⟩ := Option.isSome_iff_exists.mp hs
    exact hdom F vs0 hvs0
  · intro F vs1 h1 v
    have hs : (idxLookup idx F).isSome = true := by
      rw [← idxLookup_applyIndices_isSome fields idx r F, h1]
      rfl
    obtain ⟨vs0, hvs0⟩ := Option.isSome_iff_exists.mp hs
    rw [mem_applyIndices fields idx r F vs0 vs1 v hvs0 h1, hmem F vs0 hvs0 v]
    constructor
    · rintro (⟨r0, hr0, hg⟩ | ⟨f, hfm, hfn, hfu, hg⟩)
      · exact ⟨r0, List.mem_append.mpr (Or.inl hr0), hg⟩
      · exact ⟨r, List.mem_append.mpr (Or.inr (List.mem_singleton.mpr rfl)), hg⟩
    · rintro ⟨r0, hr0, hg⟩
      rcases List.mem_append.mp hr0 with hin | hin
      · exact Or.inl ⟨r0, hin, hg⟩
      · right
        obtain ⟨f, hfm, hfn, hfu⟩ := hdom F vs0 hvs0
        have : r0 = r := List.mem_singleton.mp hin
        subst this
        exact ⟨f, hfm, hfn, hfu, hg⟩

/-- The table level invariant. -/
def tableInv (t : Table) : Prop :=
  accurOn t.schema.Fields t.UniqueIndices t.allRows

theorem sealCheck_fields (t : Table) (now : Nat) :
    (sealCheck t now).1.schema = t.schema ∧
    (sealCheck t now).1.UniqueIndices = t.UniqueIndices ∧
    (sealCheck t now).1.allRows = t.allRows := by
  unfold sealCheck
  by_cases h : t.hotHeap.Rows.length ≥ t.hotHeap.MaxRows
  · rw [if_pos h]
    refine ⟨rfl, rfl, ?_⟩
    simp [Table.allRows, mkClump, NewHotHeap, List.map_append]
  · rw [if_neg h]
    exact ⟨rfl, rfl, rfl⟩

theorem tableInv_insertT (t : Table) (r : Row) (now : Nat) (h : tableInv t) :
    tableInv (insertT t r now).1 := by
  unfold insertT
  cases hc : checkRecord t.schema.Fields t.UniqueIndices r with
  | some e => exact h
  | none =>
    have hstep := accurOn_step t.schema.Fields t.UniqueIndices t.allRows r h
    unfold tableInv
    have hseal := sealCheck_fields
      { t with
        UniqueIndices := applyIndices t.schema.Fields t.UniqueIndices r
        hotHeap := { t.hotHeap with Rows := t.hotHeap.Rows ++ [r] } } now
    rw [hseal.1, hseal.2.1, hseal.2.2]
    have hrows : Table.allRows
        { t with
          UniqueIndices := applyIndices t.schema.Fields t.UniqueIndices r
          hotHeap := { t.hotHeap with Rows := t.hotHeap.Rows ++ [r] } }
        = t.allRows ++ [r] := by
      simp [Table.allRows]
    rw [hrows]
    exact hstep

theorem tableInv_applyBatch (t : Table) (rs : List Row) (h : tableInv t) :
    tableInv (applyBatch t rs) := by
  induction rs generalizing t with
  | nil => exact h
  | cons r rest ih =>
    simp only [applyBatch]
    refine ih _ ?_
    unfold tableInv
    have hrows : Table.allRows
        { t with
          UniqueIndices := applyIndices t.schema.Fields t.UniqueIndices r
          hotHeap := { t.hotHeap with Rows := t.hotHeap.Rows ++ [r] } }
        = t.allRows ++ [r] := by
      simp [Table.allRows]
    rw [hrows]
    exact accurOn_step t.schema.Fields t.UniqueIndices t.allRows r h

theorem tableInv_bulkInsertT (t : Table) (rs : List Row) (now : Nat)
    (h : tableInv t) : tableInv (bulkInsertT t rs now).1 := by
  unfold bulkInsertT
  cases hv : validateBatch t.schema.Fields t.UniqueIndices rs [] 0 with
  | some e => exact h
  | none =>
    have happ := tableInv_applyBatch t rs h
    have hseal := sealCheck_fields (applyBatch t rs) now
    unfold tableInv
    rw [hseal.1, hseal.2.1, hseal.2.2]
    exact happ

theorem idxLookup_buildIndices (fields : List Field) (F : String)
    (vs : List Value) (h : idxLookup (buildIndices fields) F = some vs) :
    vs = [] ∧ ∃ f ∈ fields, f.Name = F ∧ f.Unique = true := by
  induction fields with
  | nil => cases h
  | cons f rest ih =>
    by_cases hu : f.Unique
    · simp only [buildIndices, List.filterMap_cons, hu, if_true] at h
      simp only [idxLookup] at h
      by_cases hn : f.Name == F
      · rw [if_pos hn] at h
        injection h with h2
        exact ⟨h2.symm, f, List.mem_cons_self _ _, by simpa using hn, hu⟩
      · rw [if_neg hn] at h
        obtain ⟨hvs, g, hgm, hgn, hgu⟩ := ih h
        exact ⟨hvs, g, List.mem_cons_of_mem _ hgm, hgn, hgu⟩
    · simp only [buildIndices, List.filterMap_cons, hu, if_false] at h
      obtain ⟨hvs, g, hgm, hgn, hgu⟩ := ih h
      exact ⟨hvs, g, List.mem_cons_of_mem _ hgm, hgn, hgu⟩

theorem tableInv_freshTable (name : String) (s : Schema) (now cap : Nat) :
    tableInv (freshTable name s now cap) := by
  constructor
  · intro F vs h
    exact (idxLookup_buildIndices s.Fields F vs h).2
  · intro F vs h v
    obtain ⟨hvs, _⟩ := idxLookup_buildIndices s.Fields F vs h
    subst hvs
    simp [freshTable, Table.allRows, NewHotHeap]

/-- One table level operation of the amended claim. -/
inductive TableOp where
  | insertOp (r : Row) (now : Nat)
  | bulkOp (rs : List Row) (now : Nat)

def applyTableOp (t : Table) : TableOp → Table
  | TableOp.insertOp r now => (insertT t r now).1
  | TableOp.bulkOp rs now => (bulkInsertT t rs now).1

theorem tableInv_foldl (ops : List TableOp) (t : Table) (h : tableInv t) :
    tableInv (ops.foldl applyTableOp t) := by
  induction ops generalizing t with
  | nil => exact h
  | cons op rest ih =>
    cases op with
    | insertOp r now => exact ih _ (tableInv_insertT t r now h)
    | bulkOp rs now => exact ih _ (tableInv_bulkInsertT t rs now h)

/-- C2 amended: starting from a freshly defined table, after any
sequence of Insert and BulkInsert operations (successful or failed),
every unique index holds exactly the set of values of its field across
all sealed and live rows of the table. -/
theorem c2_unique_index_accurate (name : String) (s : Schema) (now cap : Nat)
    (ops : List TableOp) :
    indexAccurate (ops.foldl applyTableOp (freshTable name s now cap)) :=
  (tableInv_foldl ops (freshTable name s now cap)
    (tableInv_freshTable name s now cap)).2

def c2Table0 : Table := freshTable "users"
  { Version := 1, Fields := [{ Name := "id", typ := FieldType.int, Unique := true }] }
  0 1000

def c2Db0 : Database :=
  { Schemas := [("users",
      { Version := 1, Fields := [{ Name := "id", typ := FieldType.int, Unique := true }] })]
    Tables := [("users", c2Table0)]
    SafetyLog := []
    DataLog := [] }

def c2Db1 : Database := (DBInsert c2Db0 "users" [("id", Value.vInt 1)] 0).1

def c2Db2 : Database := (SafetyDelete c2Db1 "users" (fun _ => true) 1).1

def c2TableAfter : Table :=
  match lookupTable c2Db2 "users" with
  | some t => t
  | none => c2Table0

/-- C2 counterexample: insert one row with unique id 1, then delete it
through the safety Delete; the unique index still holds 1 while the
table holds no rows, so the index diverges from the row set after a
sequence that includes Delete. -/
theorem c2_counterexample :
    lookupTable c2Db2 "users" = some c2TableAfter ∧ ¬ indexAccurate c2TableAfter := by
  constructor
  · decide
  · intro h
    have h1 := (h "id" [Value.vInt 1] (by decide) (Value.vInt 1)).mp (by decide)
    have h2 : c2TableAfter.allRows = [] := by decide
    rw [h2] at h1
    simp at h1

def c1Schema : Schema :=
  { Version := 1, Fields := [{ Name := "price", typ := FieldType.int, Unique := false }] }

def c1Table : Table :=
  { Name := "products"
    schema := c1Schema
    hotHeap := { Rows := [[("price", Value.vInt 10)]], CreatedAt := 0, MaxRows := 1000 }
    SealedClumps := []
    UniqueIndices := [] }

def c1Db : Database :=
  { Schemas := [("products", c1Schema)]
    Tables := [("products", c1Table)]
    SafetyLog := []
    DataLog := [] }

def c1Filter : Row → Bool := fun r => rowGet r "price" == some (Value.vInt 10)

def c1DbAfterUpdate : Database :=
  (SafetyUpdate c1Db "products" c1Filter [("price", Value.vInt 99)] 7).1

def c1DbAfterRestore : Database := (Restore c1DbAfterUpdate 7 true).1

/-- C1 evidence: the hot heap rows are Go maps, so the Update scan
stores into toBackup the same map it then patches in place, and the
backup is serialized only after the loop. Updating the price 10 row to
99 therefore writes a safety record whose row already reads 99, and the
Restore that follows re-appends that 99 row: the table ends with two
price 99 rows and no price 10 copy, contrary to the claimed
pre-mutation capture. -/
theorem c1_backup_is_post_mutation :
    c1DbAfterUpdate.SafetyLog =
      [LogRecord.good
        { TableName := "products", Timestamp := 7, Data := [("price", Value.vInt 99)] }] ∧
    (Restore c1DbAfterUpdate 7 true).2 = Except.ok () ∧
    (match lookupTable c1DbAfterRestore "products" with
      | some t => t.hotHeap.Rows
      | none => []) =
      [[("price", Value.vInt 99)], [("price", Value.vInt 99)]] ∧
    ¬ (([("price", Value.vInt 99)] : Row) = [("price", Value.vInt 10)]) := by
  refine ⟨by decide, by rfl, by decide, by decide⟩

end EmojiDB
